import Mathlib

/-!
Verification of the qr-cv-research experiment-orchestration core.

This file gives a shallow embedding, in Lean 4, of the pure core of the
repository: the module-size quantizer (`src/qr_core/binning.py`,
`src/qr_core/module_size.py`), the experiment runner's per-sample loop and
progress accounting (`src/qr_core/metrics.py`), the bin-statistics
aggregator (`src/qr_core/binning.py`), the Pareto-front selection
(`src/qr_core/pareto.py`), and the job state machine and the relevant HTTP
route decisions of `src/qr_core/web_app.py`.

Modelling conventions:
* Python floats are modelled as rationals (`ℚ`); Python `round` and numpy
  `rint` (both round-half-to-even) are modelled by `pyRound`.
* Python ints are `ℤ`; loop counts are `ℕ`.
* Fallible operations are modelled with `Option` / `Except`.
* A Python `dict[str, float]` point is modelled as an association list
  `List (String × ℚ)`.
-/

namespace QRCV

/-- Python's built-in `round` (and numpy's `rint`) on a rational number:
round to the nearest integer, ties to the even integer. -/
def pyRound (q : ℚ) : ℤ :=
  let f : ℤ := ⌊q⌋
  let r : ℚ := q - f
  if r < 1/2 then f
  else if 1/2 < r then f + 1
  else if f % 2 = 0 then f else f + 1

/-- `pyRound` of an integer is that integer. -/
theorem pyRound_intCast (n : ℤ) : pyRound (n : ℚ) = n := by
  unfold pyRound
  simp

/-- Embedding of `quantize_module_size` from `src/qr_core/binning.py`:
`step = max(1, int(step_px)); rounded = int(round(module_size_px))`;
for `step == 1` return `max(1, rounded)`, otherwise
`max(step, int(round(rounded / step) * step))`. -/
def quantize_module_size : Option ℚ → ℤ → Option ℤ
  | none, _ => none
  | some module_size_px, step_px =>
    let step : ℤ := max 1 step_px
    let rounded : ℤ := pyRound module_size_px
    if step = 1 then some (max 1 rounded)
    else some (max step (pyRound ((rounded : ℚ) / (step : ℚ)) * step))

/-- Embedding of `quantize_module_size_px` from `src/qr_core/module_size.py`:
same algorithm, with the step normalised by `if step_px < 1: step_px = 1`
and the rounding done by `np.rint`. -/
def quantize_module_size_px : Option ℚ → ℤ → Option ℤ
  | none, _ => none
  | some module_size_px, step_px0 =>
    let step_px : ℤ := if step_px0 < 1 then 1 else step_px0
    let rounded : ℤ := pyRound module_size_px
    if step_px = 1 then some (max 1 rounded)
    else some (max step_px (pyRound ((rounded : ℚ) / (step_px : ℚ)) * step_px))

/-- Modelled from the spec: the quantization formula stated in §3 of the
spec, `max(step, round(round(raw) / step) * step)` for `step > 1` and
`max(1, round(raw))` for `step == 1`. Used only to compare the code's
quantizers against the spec's formula. -/
def quantize_spec_formula (raw : ℚ) (step : ℤ) : ℤ :=
  if step = 1 then max 1 (pyRound raw)
  else max step (pyRound ((pyRound raw : ℚ) / (step : ℚ)) * step)

/-- C3: for every real raw module size and every integer step ≥ 1, both
quantizers return exactly the spec's formula
(`max(step, round(round(raw)/step)*step)` for step > 1,
`max(1, round(raw))` for step == 1), and the result is a positive integer,
≥ step when step > 1 and ≥ 1 when step == 1. -/
theorem quantize_module_size_spec (raw : ℚ) (step : ℤ) (hstep : 1 ≤ step) :
    quantize_module_size (some raw) step = some (quantize_spec_formula raw step) ∧
    quantize_module_size_px (some raw) step = some (quantize_spec_formula raw step) ∧
    (step = 1 → 1 ≤ quantize_spec_formula raw step) ∧
    (1 < step → step ≤ quantize_spec_formula raw step) ∧
    0 < quantize_spec_formula raw step := by
  have hmax : max 1 step = step := max_eq_right hstep
  have hlt : ¬ step < 1 := not_lt.2 hstep
  refine ⟨?_, ?_, ?_, ?_, ?_⟩
  · simp only [quantize_module_size, quantize_spec_formula, hmax]
    split <;> rfl
  · simp only [quantize_module_size_px, quantize_spec_formula, if_neg hlt]
    split <;> rfl
  · intro h1
    simp only [quantize_spec_formula, if_pos h1]
    exact le_max_left _ _
  · intro h1
    simp only [quantize_spec_formula, if_neg (by omega : ¬ step = 1)]
    exact le_max_left _ _
  · unfold quantize_spec_formula
    by_cases h1 : step = 1
    · simp only [if_pos h1]
      have := le_max_left 1 (pyRound raw)
      omega
    · simp only [if_neg h1]
      have := le_max_left step (pyRound ((pyRound raw : ℚ) / (step : ℚ)) * step)
      omega

/-- Witness for C3 at raw = 3.5, step = 2. -/
theorem quantize_module_size_spec_witness :
    (1 : ℤ) ≤ 2 ∧
    (quantize_module_size (some (7/2)) 2 = some (quantize_spec_formula (7/2) 2) ∧
     quantize_module_size_px (some (7/2)) 2 = some (quantize_spec_formula (7/2) 2) ∧
     ((2 : ℤ) = 1 → 1 ≤ quantize_spec_formula (7/2) 2) ∧
     ((1 : ℤ) < 2 → (2 : ℤ) ≤ quantize_spec_formula (7/2) 2) ∧
     0 < quantize_spec_formula (7/2) 2) :=
  ⟨by norm_num, quantize_module_size_spec (7/2) 2 (by norm_num)⟩

/-- Multiplying a `max` by a positive step distributes (helper for C8). -/
theorem max_step_mul (m step : ℤ) (hstep : 0 < step) :
    max step (m * step) = max 1 m * step := by
  rw [max_mul_of_nonneg _ _ (le_of_lt hstep), one_mul]

/-- Unfolding of the quantizer at step 1. -/
theorem quantize_module_size_one (r : ℚ) :
    quantize_module_size (some r) 1 = some (max 1 (pyRound r)) := by
  simp [quantize_module_size]

/-- Unfolding of the quantizer at a step > 1. -/
theorem quantize_module_size_of_ne_one (r : ℚ) (step : ℤ)
    (h1 : 1 ≤ step) (h : step ≠ 1) :
    quantize_module_size (some r) step
      = some (max step (pyRound ((pyRound r : ℚ) / (step : ℚ)) * step)) := by
  simp [quantize_module_size, max_eq_right h1, h]

/-- C8: quantize is idempotent on its own output: for every r ≥ 0 and
integer step ≥ 1, `quantize(quantize(r, step), step) == quantize(r, step)`
(the output is always a multiple of step, so re-quantization fixes it). -/
theorem quantize_module_size_idempotent (r : ℚ) (step : ℤ)
    (h0 : 0 ≤ r) (h1 : 1 ≤ step) :
    (quantize_module_size (some r) step).bind
        (fun q => quantize_module_size (some (q : ℚ)) step)
      = quantize_module_size (some r) step := by
  by_cases hs1 : step = 1
  · subst hs1
    rw [quantize_module_size_one, Option.some_bind, quantize_module_size_one,
      pyRound_intCast, ← max_assoc, max_self]
  · have hpos : 0 < step := by omega
    have hne : (step : ℚ) ≠ 0 := by
      exact_mod_cast (by omega : step ≠ 0)
    rw [quantize_module_size_of_ne_one r step h1 hs1, Option.some_bind]
    set m : ℤ := pyRound ((pyRound r : ℚ) / (step : ℚ)) with hm
    set k : ℤ := max 1 m with hk
    have hq : max step (m * step) = k * step := max_step_mul m step hpos
    rw [hq, quantize_module_size_of_ne_one _ step h1 hs1]
    have hcast : ((k * step : ℤ) : ℚ) / (step : ℚ) = (k : ℚ) := by
      push_cast
      field_simp
    rw [pyRound_intCast, hcast, pyRound_intCast]
    have hk1 : 1 ≤ k := le_max_left _ _
    have hle : step ≤ k * step := by
      nlinarith
    rw [max_eq_right hle]

/-- Witness for C8 at r = 3.4, step = 2. -/
theorem quantize_module_size_idempotent_witness :
    (0 : ℚ) ≤ 17/5 ∧ (1 : ℤ) ≤ 2 ∧
    (quantize_module_size (some (17/5)) 2).bind
        (fun q => quantize_module_size (some (q : ℚ)) 2)
      = quantize_module_size (some (17/5)) 2 :=
  ⟨by norm_num, by norm_num,
    quantize_module_size_idempotent (17/5) 2 (by norm_num) (by norm_num)⟩

/-! ## Experiment runner (`src/qr_core/metrics.py`) -/

/-- One snapshot passed to the progress callback (`ProgressState`). -/
structure ProgressState where
  seen : ℕ
  processed : ℕ
  skipped_no_markup : ℕ
  skipped_bad_module : ℕ
  skipped_image_read : ℕ
deriving DecidableEq

/-- `ExperimentConfig` from metrics.py. -/
structure ExperimentConfig where
  dataset_name : String
  decode_iterations : ℤ := 3
  module_bin_step_px : ℤ := 2
  time_mode : String := "time_total_min"

/-- `SampleResult` from metrics.py (one Measurement). -/
structure SampleResult where
  dataset : String
  engine : String
  module_size : ℤ
  module_size_raw : ℚ
  module_bin_step_px : ℤ
  time_total_min_sec : ℚ
  time_mode : String
  accuracy : ℚ
  decoded : String
  expected : String
  image_path : String
  decode_iterations : ℕ
deriving DecidableEq

/-- One enumerated dataset sample, abstracted to the data the runner's loop
body branches on: whether the markup file exists (`markup_path.is_file()`),
whether `read_markup` succeeds, the extracted raw module size and expected
value, and the engine's behaviour on the i-th `decode_once` call (`none`
models a raised `EngineError`, `some (text, secs)` a successful decode). -/
structure Sample where
  image_path : String
  markup_exists : Bool
  markup_readable : Bool
  module_raw : Option ℚ
  expected : Option String
  decode : ℕ → Option (String × ℚ)

/-- The runner's mutable state: the five counters, the accumulated results
and the sequence of progress-callback invocations (in order). -/
structure RunState where
  seen : ℕ
  processed : ℕ
  skipped_no_markup : ℕ
  skipped_bad_module : ℕ
  skipped_image_read : ℕ
  results : List SampleResult
  calls : List ProgressState

def initRunState : RunState :=
  { seen := 0, processed := 0, skipped_no_markup := 0, skipped_bad_module := 0,
    skipped_image_read := 0, results := [], calls := [] }

/-- The `ProgressState` built by `_notify_progress` from the current
counters. -/
def RunState.snapshot (st : RunState) : ProgressState :=
  { seen := st.seen, processed := st.processed,
    skipped_no_markup := st.skipped_no_markup,
    skipped_bad_module := st.skipped_bad_module,
    skipped_image_read := st.skipped_image_read }

/-- `_notify_progress`: record one callback invocation with the current
counter values (modelling the case where a callback is present). -/
def RunState.notify (st : RunState) : RunState :=
  { st with calls := st.calls ++ [st.snapshot] }

/-- `iterations = max(1, int(cfg.decode_iterations))`, as a loop count. -/
def iterationsOf (cfg : ExperimentConfig) : ℕ :=
  (max 1 cfg.decode_iterations).toNat

/-- The decode-attempt loop: `none` iff some of the first `n` attempts
raises `EngineError` (Python breaks out at the first error; the observable
outcome — the sample is skipped and all partial values discarded — is the
same), otherwise the list of the `n` collected `(decoded, time)` pairs. -/
def collectAttempts (decode : ℕ → Option (String × ℚ)) : ℕ → Option (List (String × ℚ))
  | 0 => some []
  | n + 1 =>
    match collectAttempts decode n, decode n with
    | some l, some x => some (l ++ [x])
    | _, _ => none

/-- Number of `decode_once` calls the loop makes on a sample: the loop
breaks after the first failing attempt, so the count is the index of the
first failure plus one, or `n` when no attempt fails. -/
def attemptsMade (decode : ℕ → Option (String × ℚ)) (n : ℕ) : ℕ :=
  match (List.range n).find? (fun i => (decode i).isNone) with
  | some i => i + 1
  | none => n

/-- `Counter(values).most_common(1)[0][0]`: the most frequent element,
ties broken by first occurrence (strict `<` in the fold keeps the earlier
candidate on equal counts). Returns `""` on the empty list. -/
def mostCommon (l : List String) : String :=
  (l.foldl (fun best x => if best.2 < l.count x then (x, l.count x) else best) ("", 0)).1

/-- Python `str.strip()`: remove leading and trailing whitespace,
modelled on the string's character list. -/
def pyStrip (s : String) : String :=
  ⟨((s.data.dropWhile Char.isWhitespace).reverse.dropWhile Char.isWhitespace).reverse⟩

/-- Per-attempt correctness indicator, metrics.py line 121:
`1.0 if val.strip() else 0.0` — 1 iff the decoded text is non-empty after
stripping leading/trailing whitespace. -/
def attemptCorrectness (val : String) : ℚ :=
  if pyStrip val = "" then 0 else 1

/-- Python `min` over a list of floats (the list is non-empty wherever the
runner uses it). -/
def listMin : List ℚ → ℚ
  | [] => 0
  | x :: xs => xs.foldl min x

/-- The `SampleResult` record built at metrics.py lines 127-142 for a kept
sample, from the collected `(decoded, time)` attempt pairs. -/
def mkSampleResult (cfg : ExperimentConfig) (engineName : String) (s : Sample)
    (module_raw : ℚ) (module_binned : ℤ)
    (attempts : List (String × ℚ)) : SampleResult :=
  let acc_list := attempts.map (fun a => attemptCorrectness a.1)
  { dataset := cfg.dataset_name,
    engine := engineName,
    module_size := module_binned,
    module_size_raw := module_raw,
    module_bin_step_px := cfg.module_bin_step_px,
    time_total_min_sec := listMin (attempts.map Prod.snd),
    time_mode := cfg.time_mode,
    accuracy := acc_list.sum / (acc_list.length : ℚ),
    decoded := mostCommon (attempts.map Prod.fst),
    expected := s.expected.getD "",
    image_path := s.image_path,
    decode_iterations := iterationsOf cfg }

/-- The body of the runner's per-sample loop from `run_experiment`
(metrics.py lines 72-144), acting on the running state. -/
def stepSample (cfg : ExperimentConfig) (engineName : String)
    (st0 : RunState) (s : Sample) : RunState :=
  let st := { st0 with seen := st0.seen + 1 }
  if ¬ s.markup_exists then
    ({ st with skipped_no_markup := st.skipped_no_markup + 1 }).notify
  else if ¬ s.markup_readable then
    ({ st with skipped_no_markup := st.skipped_no_markup + 1 }).notify
  else
    match s.module_raw with
    | none => ({ st with skipped_bad_module := st.skipped_bad_module + 1 }).notify
    | some module_raw =>
      let expected := s.expected.getD ""
      match quantize_module_size (some module_raw) cfg.module_bin_step_px with
      | none => ({ st with skipped_bad_module := st.skipped_bad_module + 1 }).notify
      | some module_binned =>
        match collectAttempts s.decode (iterationsOf cfg) with
        | none => ({ st with skipped_image_read := st.skipped_image_read + 1 }).notify
        | some attempts =>
          if attempts.isEmpty then st.notify
          else
            ({ st with
                results := st.results
                  ++ [mkSampleResult cfg engineName s module_raw module_binned attempts],
                processed := st.processed + 1 }).notify

/-- `run_experiment` (metrics.py): fold the per-sample loop body over the
enumerated samples, starting from zeroed counters. The returned
`ExperimentSummary` is the projection of the final counters. -/
def run_experiment (cfg : ExperimentConfig) (engineName : String)
    (samples : List Sample) : RunState :=
  samples.foldl (stepSample cfg engineName) initRunState

/-- Sum of the processed/skip counters of a callback snapshot. -/
def ProgressState.countSum (c : ProgressState) : ℕ :=
  c.processed + c.skipped_no_markup + c.skipped_bad_module + c.skipped_image_read

/-- Sum of the processed/skip counters of the running state. -/
def RunState.countSum (st : RunState) : ℕ :=
  st.processed + st.skipped_no_markup + st.skipped_bad_module + st.skipped_image_read

theorem iterationsOf_pos (cfg : ExperimentConfig) : 0 < iterationsOf cfg := by
  have h := le_max_left 1 cfg.decode_iterations
  unfold iterationsOf
  omega

theorem quantize_module_size_isSome (r : ℚ) (step : ℤ) :
    ∃ b, quantize_module_size (some r) step = some b := by
  simp only [quantize_module_size]
  split <;> exact ⟨_, rfl⟩

theorem collectAttempts_length (d : ℕ → Option (String × ℚ)) :
    ∀ n l, collectAttempts d n = some l → l.length = n := by
  intro n
  induction n with
  | zero =>
    intro l h
    simp only [collectAttempts, Option.some.injEq] at h
    simp [← h]
  | succ n ih =>
    intro l h
    simp only [collectAttempts] at h
    cases h1 : collectAttempts d n with
    | none => rw [h1] at h; exact absurd h (by simp)
    | some l0 =>
      cases h2 : d n with
      | none => rw [h1, h2] at h; exact absurd h (by simp)
      | some x =>
        rw [h1, h2] at h
        simp only [Option.some.injEq] at h
        have := ih l0 h1
        simp [← h, this]

/-- The per-sample loop body: `seen` goes up by exactly one, exactly one of
the processed/skip counters goes up by exactly one, and exactly one
progress callback fires, with a snapshot of the updated counters. -/
theorem stepSample_spec (cfg : ExperimentConfig) (e : String)
    (st : RunState) (s : Sample) :
    (stepSample cfg e st s).seen = st.seen + 1 ∧
    (stepSample cfg e st s).countSum = st.countSum + 1 ∧
    (stepSample cfg e st s).calls = st.calls ++ [(stepSample cfg e st s).snapshot] := by
  unfold stepSample
  cases hme : s.markup_exists with
  | false =>
    simp [RunState.notify, RunState.snapshot, RunState.countSum]
    omega
  | true =>
    cases hmr : s.markup_readable with
    | false =>
      simp [RunState.notify, RunState.snapshot, RunState.countSum]
      omega
    | true =>
      cases hraw : s.module_raw with
      | none =>
        simp [RunState.notify, RunState.snapshot, RunState.countSum]
        omega
      | some raw =>
        obtain ⟨b, hb⟩ := quantize_module_size_isSome raw cfg.module_bin_step_px
        simp only [eq_self_iff_true, not_true, if_false, hb]
        cases hca : collectAttempts s.decode (iterationsOf cfg) with
        | none =>
          simp [RunState.notify, RunState.snapshot, RunState.countSum]
          omega
        | some attempts =>
          have hlen : attempts.length = iterationsOf cfg :=
            collectAttempts_length s.decode _ _ hca
          have hne : attempts.isEmpty = false := by
            have := iterationsOf_pos cfg
            cases attempts with
            | nil => simp at hlen; omega
            | cons a t => rfl
          simp [hne, RunState.notify, RunState.snapshot, RunState.countSum]
          omega

/-- Fold invariant for the runner: counters balance, every recorded
callback snapshot balances, snapshots' `seen` values stay below the current
`seen`, and the snapshots are strictly increasing in `seen`. -/
theorem run_experiment_aux (cfg : ExperimentConfig) (e : String) :
    ∀ (samples : List Sample) (st : RunState),
      st.seen = st.countSum →
      (∀ c ∈ st.calls, c.seen = c.countSum) →
      (∀ c ∈ st.calls, c.seen ≤ st.seen) →
      st.calls.Chain' (fun a b => a.seen < b.seen) →
      (samples.foldl (stepSample cfg e) st).calls.length
          = st.calls.length + samples.length ∧
      (samples.foldl (stepSample cfg e) st).seen
          = (samples.foldl (stepSample cfg e) st).countSum ∧
      (∀ c ∈ (samples.foldl (stepSample cfg e) st).calls, c.seen = c.countSum) ∧
      (∀ c ∈ (samples.foldl (stepSample cfg e) st).calls,
          c.seen ≤ (samples.foldl (stepSample cfg e) st).seen) ∧
      (samples.foldl (stepSample cfg e) st).calls.Chain'
          (fun a b => a.seen < b.seen) := by
  intro samples
  induction samples with
  | nil =>
    intro st h1 h2 h3 h4
    exact ⟨by simp, h1, h2, h3, h4⟩
  | cons s rest ih =>
    intro st h1 h2 h3 h4
    obtain ⟨hseen, hsum, hcalls⟩ := stepSample_spec cfg e st s
    set st1 := stepSample cfg e st s with hst1
    have hsnapseen : st1.snapshot.seen = st1.seen := rfl
    have hsnapsum : st1.snapshot.countSum = st1.countSum := rfl
    have h1' : st1.seen = st1.countSum := by omega
    have h2' : ∀ c ∈ st1.calls, c.seen = c.countSum := by
      intro c hc
      rw [hcalls] at hc
      rcases List.mem_append.1 hc with hc | hc
      · exact h2 c hc
      · simp only [List.mem_singleton] at hc
        rw [hc, hsnapseen, hsnapsum]
        exact h1'
    have h3' : ∀ c ∈ st1.calls, c.seen ≤ st1.seen := by
      intro c hc
      rw [hcalls] at hc
      rcases List.mem_append.1 hc with hc | hc
      · have := h3 c hc
        omega
      · simp only [List.mem_singleton] at hc
        rw [hc, hsnapseen]
    have h4' : st1.calls.Chain' (fun a b => a.seen < b.seen) := by
      rw [hcalls]
      rw [List.chain'_append]
      refine ⟨h4, List.chain'_singleton _, ?_⟩
      intro x hx y hy
      simp only [List.head?_cons, Option.mem_def, Option.some.injEq] at hy
      have hxm : x ∈ st.calls := List.mem_of_mem_getLast? hx
      have := h3 x hxm
      rw [← hy, hsnapseen]
      omega
    have hres := ih st1 h1' h2' h3' h4'
    have hlen1 : st1.calls.length = st.calls.length + 1 := by
      rw [hcalls]; simp
    simp only [List.foldl_cons, ← hst1]
    exact ⟨by rw [hres.1, hlen1]; simp [Nat.add_assoc, Nat.add_comm 1 rest.length],
      hres.2.1, hres.2.2.1, hres.2.2.2.1, hres.2.2.2.2⟩

/-- C2: in every run, the progress callback fires exactly once per
enumerated sample (kept or skipped); at every callback and at run
completion `seen` equals
`processed + skipped_no_markup + skipped_bad_module + skipped_image_read`;
and `seen` is strictly increasing across successive callbacks. -/
theorem run_experiment_progress (cfg : ExperimentConfig) (e : String)
    (samples : List Sample) :
    (run_experiment cfg e samples).calls.length = samples.length ∧
    (∀ c ∈ (run_experiment cfg e samples).calls,
        c.seen = c.processed + c.skipped_no_markup
          + c.skipped_bad_module + c.skipped_image_read) ∧
    (run_experiment cfg e samples).calls.Chain' (fun a b => a.seen < b.seen) ∧
    (run_experiment cfg e samples).seen
      = (run_experiment cfg e samples).processed
        + (run_experiment cfg e samples).skipped_no_markup
        + (run_experiment cfg e samples).skipped_bad_module
        + (run_experiment cfg e samples).skipped_image_read := by
  have h := run_experiment_aux cfg e samples initRunState rfl
    (by intro c hc; simp [initRunState] at hc) (by intro c hc; simp [initRunState] at hc)
    (by simp [initRunState])
  unfold run_experiment
  refine ⟨by simpa [initRunState] using h.1, ?_, h.2.2.2.2, h.2.1⟩
  intro c hc
  exact h.2.2.1 c hc

theorem collectAttempts_eq_none_iff (d : ℕ → Option (String × ℚ)) :
    ∀ n, collectAttempts d n = none ↔ ∃ i < n, d i = none := by
  intro n
  induction n with
  | zero => simp [collectAttempts]
  | succ n ih =>
    constructor
    · intro h
      simp only [collectAttempts] at h
      cases h1 : collectAttempts d n with
      | none =>
        obtain ⟨i, hi, hdi⟩ := ih.1 h1
        exact ⟨i, by omega, hdi⟩
      | some l =>
        cases h2 : d n with
        | none => exact ⟨n, by omega, h2⟩
        | some x => rw [h1, h2] at h; simp at h
    · rintro ⟨i, hi, hdi⟩
      simp only [collectAttempts]
      by_cases hin : i < n
      · rw [ih.2 ⟨i, hin, hdi⟩]
      · have hieq : i = n := by omega
        subst hieq
        simp only [collectAttempts, hdi]
        cases collectAttempts d i <;> rfl

theorem collectAttempts_eq_map (d : ℕ → Option (String × ℚ)) :
    ∀ n, (∀ i < n, (d i).isSome) →
      collectAttempts d n
        = some ((List.range n).map (fun i => (d i).getD ("", 0))) := by
  intro n
  induction n with
  | zero => intro _; simp [collectAttempts]
  | succ n ih =>
    intro h
    have hn := h n (by omega)
    obtain ⟨x, hx⟩ := Option.isSome_iff_exists.1 hn
    have hprev := ih (fun i hi => h i (by omega))
    simp only [collectAttempts, hprev, hx, List.range_succ, List.map_append,
      List.map_cons, List.map_nil, Option.some.injEq]
    simp [hx]

theorem find?_range_eq_some (p : ℕ → Bool) :
    ∀ n i, i < n → p i = true → (∀ j < i, p j = false) →
      (List.range n).find? p = some i := by
  intro n
  induction n with
  | zero => intro i hi; omega
  | succ n ih =>
    intro i hi hp hmin
    rw [List.range_succ, List.find?_append]
    by_cases hin : i < n
    · rw [ih i hin hp hmin]
      rfl
    · have hieq : i = n := by omega
      subst hieq
      have hnone : (List.range i).find? p = none := by
        rw [List.find?_eq_none]
        intro j hj
        simp only [List.mem_range] at hj
        simp [hmin j hj]
      rw [hnone]
      simp [List.find?, hp]

/-- Unfolding of the loop body when the sample reaches the decode loop and
some attempt raises `EngineError`. -/
theorem stepSample_decode_fail (cfg : ExperimentConfig) (e : String)
    (st : RunState) (s : Sample)
    (hm : s.markup_exists = true) (hr : s.markup_readable = true)
    (raw : ℚ) (hraw : s.module_raw = some raw)
    (hca : collectAttempts s.decode (iterationsOf cfg) = none) :
    stepSample cfg e st s
      = ({ st with
            seen := st.seen + 1,
            skipped_image_read := st.skipped_image_read + 1 }).notify := by
  obtain ⟨b, hb⟩ := quantize_module_size_isSome raw cfg.module_bin_step_px
  unfold stepSample
  rw [hm, hr, hraw]
  simp only [eq_self_iff_true, not_true, if_false, hb, hca]

/-- Unfolding of the loop body when the sample reaches the decode loop and
all attempts succeed. -/
theorem stepSample_decode_ok (cfg : ExperimentConfig) (e : String)
    (st : RunState) (s : Sample)
    (hm : s.markup_exists = true) (hr : s.markup_readable = true)
    (raw : ℚ) (hraw : s.module_raw = some raw)
    (b : ℤ) (hb : quantize_module_size (some raw) cfg.module_bin_step_px = some b)
    (attempts : List (String × ℚ))
    (hca : collectAttempts s.decode (iterationsOf cfg) = some attempts)
    (hne : attempts ≠ []) :
    stepSample cfg e st s
      = ({ st with
            seen := st.seen + 1,
            processed := st.processed + 1,
            results := st.results
              ++ [mkSampleResult cfg e s raw b attempts] }).notify := by
  unfold stepSample
  rw [hm, hr, hraw]
  have hemp : attempts.isEmpty = false := by
    cases attempts with
    | nil => exact absurd rfl hne
    | cons a t => rfl
  simp only [eq_self_iff_true, not_true, if_false, hb, hca, hemp]
  rfl

/-- C5: if the sample reaches the decode loop and any decode attempt raises
`EngineError`, the remaining attempts are aborted (the loop makes exactly
`firstFailure + 1` calls), `skipped_image_read` goes up by exactly one, no
Measurement is emitted, and the run goes on (the loop body returns
normally with `seen` advanced); if instead all attempts succeed, the
emitted Measurement records exactly `decodeIterations` attempts — a sample
never contributes a partial attempt set. -/
theorem decode_failure_isolation (cfg : ExperimentConfig) (e : String)
    (st : RunState) (s : Sample)
    (hm : s.markup_exists = true) (hr : s.markup_readable = true)
    (raw : ℚ) (hraw : s.module_raw = some raw) :
    ((∃ i < iterationsOf cfg, s.decode i = none) →
      (stepSample cfg e st s).skipped_image_read = st.skipped_image_read + 1 ∧
      (stepSample cfg e st s).results = st.results ∧
      (stepSample cfg e st s).processed = st.processed ∧
      (stepSample cfg e st s).seen = st.seen + 1 ∧
      (∀ i < iterationsOf cfg, s.decode i = none → (∀ j < i, (s.decode j).isSome) →
        attemptsMade s.decode (iterationsOf cfg) = i + 1)) ∧
    ((∀ i < iterationsOf cfg, (s.decode i).isSome) →
      attemptsMade s.decode (iterationsOf cfg) = iterationsOf cfg ∧
      ∃ res : SampleResult,
        (stepSample cfg e st s).results = st.results ++ [res] ∧
        res.decode_iterations = iterationsOf cfg) := by
  constructor
  · intro hfail
    have hca : collectAttempts s.decode (iterationsOf cfg) = none :=
      (collectAttempts_eq_none_iff s.decode _).2 hfail
    rw [stepSample_decode_fail cfg e st s hm hr raw hraw hca]
    refine ⟨rfl, rfl, rfl, rfl, ?_⟩
    intro i hi hdi hmin
    unfold attemptsMade
    rw [find?_range_eq_some (fun j => (s.decode j).isNone) _ i hi
      (by simp [hdi]) (fun j hj => by
        have := hmin j hj
        simp only [Option.isNone_eq_false_iff]
        exact this)]
  · intro hok
    have hca := collectAttempts_eq_map s.decode _ hok
    set attempts := (List.range (iterationsOf cfg)).map
      (fun i => (s.decode i).getD ("", 0)) with hatt
    have hne : attempts ≠ [] := by
      have hpos := iterationsOf_pos cfg
      intro h
      have : attempts.length = 0 := by rw [h]; rfl
      rw [hatt] at this
      simp at this
      omega
    obtain ⟨b, hb⟩ := quantize_module_size_isSome raw cfg.module_bin_step_px
    constructor
    · unfold attemptsMade
      have hnone : (List.range (iterationsOf cfg)).find?
          (fun j => (s.decode j).isNone) = none := by
        rw [List.find?_eq_none]
        intro j hj
        simp only [List.mem_range] at hj
        simp [Option.isNone_eq_false_iff, Option.isSome_iff_ne_none.1 (hok j hj)]
      rw [hnone]
    · refine ⟨mkSampleResult cfg e s raw b attempts, ?_, rfl⟩
      rw [stepSample_decode_ok cfg e st s hm hr raw hraw b hb attempts hca hne]
      simp [RunState.notify]

/-- Concrete sample whose first decode attempt raises `EngineError`. -/
def failSample : Sample :=
  { image_path := "img0.png", markup_exists := true, markup_readable := true,
    module_raw := some 4, expected := some "v",
    decode := fun _ => none }

def smallCfg : ExperimentConfig :=
  { dataset_name := "ds", decode_iterations := 3, module_bin_step_px := 2 }

/-- Witness for C5: on a sample whose first decode attempt fails, with 3
configured iterations, the decode-failure counter goes up by one, no
result is emitted, and exactly one attempt is made. -/
theorem decode_failure_isolation_witness :
    (stepSample smallCfg "eng" initRunState failSample).skipped_image_read = 1 ∧
    (stepSample smallCfg "eng" initRunState failSample).results = [] ∧
    attemptsMade failSample.decode (iterationsOf smallCfg) = 1 := by
  have h := (decode_failure_isolation smallCfg "eng" initRunState failSample
    rfl rfl 4 rfl).1 ⟨0, by decide, rfl⟩
  refine ⟨by rw [h.1]; rfl, by rw [h.2.1]; rfl, ?_⟩
  exact h.2.2.2.2 0 (by decide) rfl (fun j hj => by omega)

theorem list_sum_le_length (l : List ℚ) (h : ∀ x ∈ l, 0 ≤ x ∧ x ≤ 1) :
    0 ≤ l.sum ∧ l.sum ≤ (l.length : ℚ) := by
  induction l with
  | nil => simp
  | cons x xs ih =>
    have hx := h x (by simp)
    have hxs := ih (fun y hy => h y (by simp [hy]))
    simp only [List.sum_cons, List.length_cons]
    constructor
    · have := hxs.1
      linarith
    · have := hxs.2
      push_cast
      linarith

theorem attemptCorrectness_bounds (v : String) :
    0 ≤ attemptCorrectness v ∧ attemptCorrectness v ≤ 1 := by
  unfold attemptCorrectness
  split <;> norm_num

/-- C6 counterexample: a decode attempt returning the non-empty text `" "`
(a single space) is scored 0.0 by the runner, because the code tests
`val.strip()`, not emptiness of the raw text. The one-sample run emits a
Measurement with accuracy 0 although its decoded text is non-empty. -/
def wsSample : Sample :=
  { image_path := "img1.png", markup_exists := true, markup_readable := true,
    module_raw := some 4, expected := some "v",
    decode := fun _ => some (" ", 1) }

def wsCfg : ExperimentConfig :=
  { dataset_name := "ds", decode_iterations := 1, module_bin_step_px := 2 }

theorem pyRound_four : pyRound 4 = 4 := by
  rw [show (4 : ℚ) = ((4 : ℤ) : ℚ) by norm_num, pyRound_intCast]

theorem quantize_four_two : quantize_module_size (some 4) 2 = some 4 := by
  rw [quantize_module_size_of_ne_one 4 2 (by norm_num) (by norm_num), pyRound_four]
  have h2 : ((4 : ℤ) : ℚ) / ((2 : ℤ) : ℚ) = ((2 : ℤ) : ℚ) := by
    push_cast
    norm_num
  rw [h2, pyRound_intCast]
  norm_num

theorem accuracy_nonempty_counterexample :
    (run_experiment wsCfg "eng" [wsSample]).results.map (fun r => r.accuracy) = [0] ∧
    (run_experiment wsCfg "eng" [wsSample]).results.map (fun r => r.decoded) = [" "] ∧
    (" " : String) ≠ "" ∧
    attemptCorrectness " " = 0 := by
  have hca : collectAttempts wsSample.decode (iterationsOf wsCfg) = some [(" ", 1)] := rfl
  have hrun : run_experiment wsCfg "eng" [wsSample]
      = stepSample wsCfg "eng" initRunState wsSample := by
    unfold run_experiment
    simp
  rw [hrun,
    stepSample_decode_ok wsCfg "eng" initRunState wsSample rfl rfl 4 rfl 4
      quantize_four_two [(" ", 1)] hca (by simp)]
  have hac : attemptCorrectness " " = 0 := by decide
  refine ⟨?_, ?_, by decide, hac⟩
  · simp [RunState.notify, initRunState, mkSampleResult, hac]
  · simp only [RunState.notify, initRunState, mkSampleResult]
    show List.map _ ([] ++ [_]) = _
    simp only [List.nil_append, List.map_cons, List.map_nil]
    have hmc : mostCommon [" "] = " " := by decide
    rw [hmc]

/-- C6 amended: per-attempt correctness is 1.0 iff the decoded text of the
attempt is non-empty after stripping whitespace (`val.strip()`), and the
Measurement's accuracy is the arithmetic mean of these 0/1 indicators over
all `decodeIterations` attempts, hence lies in [0,1]. -/
theorem accuracy_is_mean_of_indicators (cfg : ExperimentConfig) (e : String)
    (st : RunState) (s : Sample)
    (hm : s.markup_exists = true) (hr : s.markup_readable = true)
    (raw : ℚ) (hraw : s.module_raw = some raw)
    (hok : ∀ i < iterationsOf cfg, (s.decode i).isSome) :
    ∃ res : SampleResult,
      (stepSample cfg e st s).results = st.results ++ [res] ∧
      res.decode_iterations = iterationsOf cfg ∧
      res.accuracy
        = ((List.range (iterationsOf cfg)).map
            (fun i => attemptCorrectness ((s.decode i).getD ("", 0)).1)).sum
          / (iterationsOf cfg : ℚ) ∧
      0 ≤ res.accuracy ∧ res.accuracy ≤ 1 ∧
      (∀ v : String, (attemptCorrectness v = 1 ↔ pyStrip v ≠ "") ∧
        (attemptCorrectness v = 0 ↔ pyStrip v = "")) := by
  have hca := collectAttempts_eq_map s.decode _ hok
  set attempts := (List.range (iterationsOf cfg)).map
    (fun i => (s.decode i).getD ("", 0)) with hatt
  have hpos := iterationsOf_pos cfg
  have hlenatt : attempts.length = iterationsOf cfg := by
    rw [hatt]; simp
  have hne : attempts ≠ [] := by
    intro h
    rw [h] at hlenatt
    simp at hlenatt
    omega
  obtain ⟨b, hb⟩ := quantize_module_size_isSome raw cfg.module_bin_step_px
  refine ⟨mkSampleResult cfg e s raw b attempts, ?_, rfl, ?_, ?_, ?_, ?_⟩
  · rw [stepSample_decode_ok cfg e st s hm hr raw hraw b hb attempts hca hne]
    simp [RunState.notify]
  · show (attempts.map (fun a => attemptCorrectness a.1)).sum
        / ((attempts.map (fun a => attemptCorrectness a.1)).length : ℚ) = _
    rw [hatt, List.map_map]
    simp only [Function.comp_def, List.length_map, List.length_range]
  · show 0 ≤ (attempts.map (fun a => attemptCorrectness a.1)).sum
        / ((attempts.map (fun a => attemptCorrectness a.1)).length : ℚ)
    have hb := list_sum_le_length (attempts.map (fun a => attemptCorrectness a.1))
      (by
        intro x hx
        simp only [List.mem_map] at hx
        obtain ⟨a, _, rfl⟩ := hx
        exact attemptCorrectness_bounds a.1)
    exact div_nonneg hb.1 (by positivity)
  · show (attempts.map (fun a => attemptCorrectness a.1)).sum
        / ((attempts.map (fun a => attemptCorrectness a.1)).length : ℚ) ≤ 1
    have hsums := list_sum_le_length (attempts.map (fun a => attemptCorrectness a.1))
      (by
        intro x hx
        simp only [List.mem_map] at hx
        obtain ⟨a, _, rfl⟩ := hx
        exact attemptCorrectness_bounds a.1)
    have hlen : ((attempts.map (fun a => attemptCorrectness a.1)).length : ℚ)
        = (iterationsOf cfg : ℚ) := by
      rw [List.length_map, hlenatt]
    rw [hlen]
    rw [div_le_one (by exact_mod_cast hpos)]
    calc (attempts.map (fun a => attemptCorrectness a.1)).sum
        ≤ ((attempts.map (fun a => attemptCorrectness a.1)).length : ℚ) := hsums.2
      _ = (iterationsOf cfg : ℚ) := hlen
  · intro v
    unfold attemptCorrectness
    constructor
    · constructor
      · intro h
        intro hv
        rw [hv] at h
        simp at h
      · intro h
        rw [if_neg h]
    · constructor
      · intro h
        by_contra hv
        rw [if_neg hv] at h
        simp at h
      · intro h
        rw [if_pos h]

/-- Concrete all-successful sample (decodes to "ok" on every attempt). -/
def okSample : Sample :=
  { image_path := "img2.png", markup_exists := true, markup_readable := true,
    module_raw := some 4, expected := some "ok",
    decode := fun _ => some ("ok", 1) }

/-- Witness for the amended C6 at a concrete 3-iteration run: the emitted
Measurement's accuracy is the mean of the indicators, here 1. -/
theorem accuracy_is_mean_of_indicators_witness :
    ∃ res : SampleResult,
      (stepSample smallCfg "eng" initRunState okSample).results = [] ++ [res] ∧
      res.decode_iterations = iterationsOf smallCfg ∧
      res.accuracy
        = ((List.range (iterationsOf smallCfg)).map
            (fun i => attemptCorrectness ((okSample.decode i).getD ("", 0)).1)).sum
          / (iterationsOf smallCfg : ℚ) ∧
      0 ≤ res.accuracy ∧ res.accuracy ≤ 1 ∧
      (∀ v : String, (attemptCorrectness v = 1 ↔ pyStrip v ≠ "") ∧
        (attemptCorrectness v = 0 ↔ pyStrip v = "")) :=
  accuracy_is_mean_of_indicators smallCfg "eng" initRunState okSample
    rfl rfl 4 rfl (fun i _ => rfl)

/-! ## Bin statistics (`build_bin_stats` in `src/qr_core/binning.py`) -/

/-- `BinStats` from binning.py. -/
structure BinStats where
  module_size : ℤ
  count : ℕ
  mean_accuracy : ℚ
  count_acc1 : ℕ
  count_acc0 : ℕ
  mean_time : ℚ
deriving DecidableEq

/-- The group of measurements falling in bin `k` (the dict entry
`bins[record.module_size]`, which collects records in input order). -/
def binItems (results : List SampleResult) (k : ℤ) : List SampleResult :=
  results.filter (fun r => r.module_size = k)

/-- The per-bin record computed in the loop body of `build_bin_stats`. -/
def binFor (results : List SampleResult) (k : ℤ) : BinStats :=
  let items := binItems results k
  { module_size := k,
    count := items.length,
    mean_accuracy := (items.map (fun r => r.accuracy)).sum / (items.length : ℚ),
    count_acc1 := (items.filter (fun r => r.accuracy = 1)).length,
    count_acc0 := (items.filter (fun r => r.accuracy = 0)).length,
    mean_time := (items.map (fun r => r.time_total_min_sec)).sum / (items.length : ℚ) }

/-- `sorted(bins.keys())`: the distinct bins, ascending (Python's stable
sort modelled by insertion sort). -/
def binKeys (results : List SampleResult) : List ℤ :=
  ((results.map (fun r => r.module_size)).dedup).insertionSort (· ≤ ·)

/-- `build_bin_stats` from binning.py: group by quantized bin, iterate the
bins in ascending order, skip empty groups (`if count == 0: continue`,
which never fires since groups come from existing records), and emit one
`BinStats` per group. -/
def build_bin_stats (results : List SampleResult) : List BinStats :=
  (binKeys results).filterMap (fun k =>
    if (binItems results k).length = 0 then none
    else some (binFor results k))

theorem mem_binKeys (results : List SampleResult) (k : ℤ) :
    k ∈ binKeys results ↔ ∃ r ∈ results, r.module_size = k := by
  unfold binKeys
  rw [List.mem_insertionSort, List.mem_dedup, List.mem_map]

theorem binKeys_nodup (results : List SampleResult) : (binKeys results).Nodup := by
  unfold binKeys
  rw [(List.perm_insertionSort (· ≤ ·) _).nodup_iff]
  exact List.nodup_dedup _

theorem binKeys_sorted (results : List SampleResult) :
    (binKeys results).Sorted (· < ·) :=
  (List.sorted_insertionSort (· ≤ ·) _).lt_of_le (binKeys_nodup results)

theorem binItems_ne_nil (results : List SampleResult) (k : ℤ)
    (h : k ∈ binKeys results) : (binItems results k).length ≠ 0 := by
  obtain ⟨r, hr, hk⟩ := (mem_binKeys results k).1 h
  have : r ∈ binItems results k := by
    unfold binItems
    rw [List.mem_filter]
    exact ⟨hr, by simp [hk]⟩
  intro hlen
  rw [List.length_eq_zero] at hlen
  rw [hlen] at this
  exact absurd this (List.not_mem_nil r)

theorem build_bin_stats_eq_map (results : List SampleResult) :
    build_bin_stats results = (binKeys results).map (binFor results) := by
  unfold build_bin_stats
  have h : ∀ ks : List ℤ, (∀ k ∈ ks, (binItems results k).length ≠ 0) →
      (ks.filterMap (fun k =>
        if (binItems results k).length = 0 then none
        else some (binFor results k))) = ks.map (binFor results) := by
    intro ks
    induction ks with
    | nil => intro _; rfl
    | cons k ks ih =>
      intro hmem
      rw [List.filterMap_cons, List.map_cons, if_neg (hmem k (by simp)),
        ih (fun j hj => hmem j (by simp [hj]))]
  exact h _ (fun k hk => binItems_ne_nil results k hk)

/-- Counting elements of a mapped list equals counting preimages. -/
theorem count_map_eq_filter_length (results : List SampleResult) (k : ℤ) :
    (results.map (fun r => r.module_size)).count k = (binItems results k).length := by
  unfold binItems
  rw [List.count_eq_countP, List.countP_map, List.countP_eq_length_filter]
  congr 1

theorem sum_binCounts (results : List SampleResult) :
    ((binKeys results).map (fun k => (binItems results k).length)).sum
      = results.length := by
  have hperm : List.Perm (binKeys results)
      ((results.map (fun r => r.module_size)).dedup) :=
    List.perm_insertionSort (· ≤ ·) _
  have h1 : ((binKeys results).map (fun k => (binItems results k).length)).sum
      = (((results.map (fun r => r.module_size)).dedup).map
          (fun k => (binItems results k).length)).sum :=
    (hperm.map _).sum_eq
  rw [h1]
  have h2 : (((results.map (fun r => r.module_size)).dedup).map
      (fun k => (binItems results k).length))
      = (((results.map (fun r => r.module_size)).dedup).map
          (fun k => (results.map (fun r => r.module_size)).count k)) := by
    apply List.map_congr_left
    intro k _
    exact (count_map_eq_filter_length results k).symm
  rw [h2, List.sum_map_count_dedup_eq_length, List.length_map]

/-- Filtering by two mutually exclusive predicates splits the filter by
their disjunction. -/
theorem filter_disjoint_add {α : Type} (P Q : α → Bool)
    (hdis : ∀ x, ¬ (P x = true ∧ Q x = true)) :
    ∀ l : List α,
      (l.filter P).length + (l.filter Q).length
        = (l.filter (fun x => P x || Q x)).length := by
  intro l
  induction l with
  | nil => rfl
  | cons x xs ih =>
    by_cases hp : P x = true
    · have hq : Q x = false := by
        cases hqv : Q x with
        | false => rfl
        | true => exact absurd ⟨hp, hqv⟩ (hdis x)
      simp [List.filter_cons, hp, hq]
      omega
    · have hp' : P x = false := by
        cases hpv : P x with
        | false => rfl
        | true => exact absurd hpv hp
      cases hq : Q x with
      | false => simp [List.filter_cons, hp', hq]; omega
      | true => simp [List.filter_cons, hp', hq]; omega

/-- C9: `build_bin_stats` emits one `BinStats` per non-empty bin, in
strictly ascending bin order; the per-bin counts sum to the number of
input measurements; and per bin `count_acc1 + count_acc0 ≤ count`, with
equality exactly when every accuracy in the bin is exactly 0 or 1. -/
theorem build_bin_stats_spec (results : List SampleResult) :
    (build_bin_stats results).Chain' (fun a b => a.module_size < b.module_size) ∧
    (∀ k : ℤ, (∃ b ∈ build_bin_stats results, b.module_size = k)
      ↔ (∃ r ∈ results, r.module_size = k)) ∧
    ((build_bin_stats results).map (fun b => b.count)).sum = results.length ∧
    (∀ b ∈ build_bin_stats results,
      b.count_acc1 + b.count_acc0 ≤ b.count ∧
      (b.count_acc1 + b.count_acc0 = b.count ↔
        ∀ r ∈ results, r.module_size = b.module_size →
          (r.accuracy = 0 ∨ r.accuracy = 1))) := by
  rw [build_bin_stats_eq_map]
  refine ⟨?_, ?_, ?_, ?_⟩
  · apply List.Pairwise.chain'
    rw [List.pairwise_map]
    exact binKeys_sorted results
  · intro k
    constructor
    · rintro ⟨b, hb, hk⟩
      rw [List.mem_map] at hb
      obtain ⟨j, hj, rfl⟩ := hb
      have : (binFor results j).module_size = j := rfl
      rw [this] at hk
      subst hk
      exact (mem_binKeys results j).1 hj
    · intro h
      refine ⟨binFor results k, ?_, rfl⟩
      rw [List.mem_map]
      exact ⟨k, (mem_binKeys results k).2 h, rfl⟩
  · rw [List.map_map]
    have : ((binKeys results).map ((fun b => b.count) ∘ binFor results))
        = (binKeys results).map (fun k => (binItems results k).length) := rfl
    rw [this, sum_binCounts]
  · intro b hb
    rw [List.mem_map] at hb
    obtain ⟨k, hk, rfl⟩ := hb
    have hsplit := filter_disjoint_add
      (fun r : SampleResult => decide (r.accuracy = 1))
      (fun r : SampleResult => decide (r.accuracy = 0))
      (by
        intro r ⟨h1, h0⟩
        simp only [decide_eq_true_eq] at h1 h0
        rw [h1] at h0
        norm_num at h0)
      (binItems results k)
    constructor
    · show (binFor results k).count_acc1 + (binFor results k).count_acc0
          ≤ (binFor results k).count
      unfold binFor
      simp only
      rw [hsplit]
      exact List.length_filter_le _ _
    · show (binFor results k).count_acc1 + (binFor results k).count_acc0
          = (binFor results k).count ↔ _
      unfold binFor
      simp only
      rw [hsplit]
      rw [← List.countP_eq_length_filter, List.countP_eq_length]
      constructor
      · intro h r hr hrk
        have hmem : r ∈ binItems results k := by
          unfold binItems
          rw [List.mem_filter]
          exact ⟨hr, by simp [hrk]⟩
        have := h r hmem
        simp only [Bool.or_eq_true, decide_eq_true_eq] at this
        tauto
      · intro h r hr
        have hr' := List.mem_filter.1 hr
        have hrk : r.module_size = k := by
          have := hr'.2
          simpa using this
        have := h r hr'.1 hrk
        simp only [Bool.or_eq_true, decide_eq_true_eq]
        tauto

/-! ## Pareto front (`src/qr_core/pareto.py`) -/

/-- A Python `dict[str, float]` point, as an association list. -/
abbrev Point := List (String × ℚ)

/-- `float(p[k])`, and `p.get("module_size", 0.0)`: dictionary access,
defaulting to 0 when the key is absent (for the minimize/maximize keys
Python would raise `KeyError` on an absent key; the theorems assume those
keys are present, where the two semantics agree). -/
def pval (p : Point) (k : String) : ℚ :=
  (p.lookup k).getD 0

/-- `_dominates` from pareto.py: `a` dominates `b` iff `a` is ≤ on every
minimize key and ≥ on every maximize key, with at least one strict
inequality. -/
def dominates (minimize_keys maximize_keys : List String) (a b : Point) : Bool :=
  (minimize_keys.all (fun k => decide (pval a k ≤ pval b k)) &&
   maximize_keys.all (fun k => decide (pval b k ≤ pval a k))) &&
  (minimize_keys.any (fun k => decide (pval a k < pval b k)) ||
   maximize_keys.any (fun k => decide (pval b k < pval a k)))

/-- The sort key of `pareto_front`: minimize keys, negated maximize keys,
then the `module_size` bin. -/
def sortKey (minimize_keys maximize_keys : List String) (p : Point) : List ℚ :=
  minimize_keys.map (fun k => pval p k)
    ++ maximize_keys.map (fun k => -(pval p k))
    ++ [pval p "module_size"]

/-- Python's lexicographic tuple comparison (non-strict). -/
def lexLe : List ℚ → List ℚ → Bool
  | [], _ => true
  | _ :: _, [] => false
  | x :: xs, y :: ys =>
    if x < y then true
    else if y < x then false
    else lexLe xs ys

/-- The candidate order used by `sorted(points, key=sort_key)`. -/
def keyLe (minimize_keys maximize_keys : List String) (p q : Point) : Prop :=
  lexLe (sortKey minimize_keys maximize_keys p)
    (sortKey minimize_keys maximize_keys q) = true

theorem lexLe_total : ∀ x y : List ℚ, lexLe x y = true ∨ lexLe y x = true := by
  intro x
  induction x with
  | nil => intro y; left; rfl
  | cons a xs ih =>
    intro y
    cases y with
    | nil => right; rfl
    | cons b ys =>
      rcases lt_trichotomy a b with h | h | h
      · left; simp [lexLe, h]
      · subst h
        rcases ih ys with h2 | h2
        · left; simp [lexLe, lt_irrefl, h2]
        · right; simp [lexLe, lt_irrefl, h2]
      · right; simp [lexLe, h]

theorem lexLe_trans : ∀ x y z : List ℚ,
    lexLe x y = true → lexLe y z = true → lexLe x z = true := by
  intro x
  induction x with
  | nil => intro y z _ _; rfl
  | cons a xs ih =>
    intro y z hxy hyz
    cases y with
    | nil => simp [lexLe] at hxy
    | cons b ys =>
      cases z with
      | nil => simp [lexLe] at hyz
      | cons c zs =>
        simp only [lexLe] at hxy hyz ⊢
        rcases lt_trichotomy a b with hab | hab | hab
        · rcases lt_trichotomy b c with hbc | hbc | hbc
          · simp [lt_trans hab hbc]
          · subst hbc; simp [hab]
          · rw [if_neg (not_lt.2 (le_of_lt hbc)), if_pos hbc] at hyz
            exact absurd hyz (by simp)
        · subst hab
          rcases lt_trichotomy a c with hac | hac | hac
          · simp [hac]
          · subst hac
            rw [if_neg (lt_irrefl a), if_neg (lt_irrefl a)] at hxy hyz ⊢
            exact ih ys zs hxy hyz
          · rw [if_neg (by exact not_lt.2 (le_of_lt hac)), if_pos hac] at hyz
            exact absurd hyz (by simp)
        · rw [if_neg (not_lt.2 (le_of_lt hab)), if_pos hab] at hxy
          exact absurd hxy (by simp)

instance keyLe_decidable (mk xk : List String) : DecidableRel (keyLe mk xk) :=
  fun p q => by
    unfold keyLe
    infer_instance

instance keyLe_total (mk xk : List String) : IsTotal Point (keyLe mk xk) :=
  ⟨fun p q => lexLe_total _ _⟩

instance keyLe_trans_inst (mk xk : List String) : IsTrans Point (keyLe mk xk) :=
  ⟨fun _ _ _ => lexLe_trans _ _ _⟩

/-- `pareto_front` from pareto.py: return `[]` on empty input; otherwise
sort the points by `sort_key` (Python's stable sort, modelled by insertion
sort) and keep, in that order, exactly the points dominated by no other
point. The source skips the comparison `q is p`; that check is redundant
here because `_dominates` is irreflexive. The function is pure, so
repeated calls with the same input give identical output. -/
def pareto_front (points : List Point)
    (minimize_keys maximize_keys : List String) : List Point :=
  if points.isEmpty then []
  else
    let ordered := points.insertionSort (keyLe minimize_keys maximize_keys)
    ordered.filter (fun p =>
      ! ordered.any (fun q => dominates minimize_keys maximize_keys q p))

theorem dominates_irrefl (mk xk : List String) (p : Point) :
    dominates mk xk p p = false := by
  simp [dominates]

theorem dominates_trans (mk xk : List String) (a b c : Point)
    (hab : dominates mk xk a b = true) (hbc : dominates mk xk b c = true) :
    dominates mk xk a c = true := by
  simp only [dominates, Bool.and_eq_true, Bool.or_eq_true, List.all_eq_true,
    List.any_eq_true, decide_eq_true_eq] at hab hbc ⊢
  obtain ⟨⟨habmin, habmax⟩, habs⟩ := hab
  obtain ⟨⟨hbcmin, hbcmax⟩, _⟩ := hbc
  refine ⟨⟨fun k hk => le_trans (habmin k hk) (hbcmin k hk),
    fun k hk => le_trans (hbcmax k hk) (habmax k hk)⟩, ?_⟩
  rcases habs with ⟨k, hk, hlt⟩ | ⟨k, hk, hlt⟩
  · exact Or.inl ⟨k, hk, lt_of_lt_of_le hlt (hbcmin k hk)⟩
  · exact Or.inr ⟨k, hk, lt_of_le_of_lt (hbcmax k hk) hlt⟩

theorem countP_mono_of_imp {α : Type} (P Q : α → Bool) :
    ∀ l : List α, (∀ x ∈ l, P x = true → Q x = true) →
      l.countP P ≤ l.countP Q := by
  intro l
  induction l with
  | nil => intro _; simp
  | cons x xs ih =>
    intro h
    have hxs := ih (fun y hy => h y (by simp [hy]))
    rw [List.countP_cons, List.countP_cons]
    by_cases hp : P x = true
    · rw [h x (by simp) hp]
      simp [hp]
      omega
    · have : P x = false := by
        cases hv : P x with
        | true => exact absurd hv hp
        | false => rfl
      rw [this]
      simp
      cases Q x <;> simp <;> omega

theorem countP_lt_of_imp {α : Type} (P Q : α → Bool) :
    ∀ l : List α, (∀ x ∈ l, P x = true → Q x = true) →
      (∃ x ∈ l, Q x = true ∧ P x = false) →
      l.countP P < l.countP Q := by
  intro l
  induction l with
  | nil => rintro _ ⟨x, hx, _⟩; exact absurd hx (List.not_mem_nil x)
  | cons y ys ih =>
    rintro h ⟨x, hx, hq, hp⟩
    rw [List.countP_cons, List.countP_cons]
    rcases List.mem_cons.1 hx with rfl | hx'
    · rw [hp, hq]
      have := countP_mono_of_imp P Q ys (fun z hz => h z (by simp [hz]))
      simp
      omega
    · have hlt := ih (fun z hz => h z (by simp [hz])) ⟨x, hx', hq, hp⟩
      by_cases hpy : P y = true
      · rw [hpy, h y (by simp) hpy]
        omega
      · have : P y = false := by
          cases hv : P y with
          | true => exact absurd hv hpy
          | false => rfl
        rw [this]
        cases Q y <;> simp <;> omega

/-- In a finite set of points, a dominated point is dominated by some
point that is itself dominated by nothing in the set (a dominance-maximal
dominator), because dominance is transitive and irreflexive. -/
theorem exists_maximal_dominator (mk xk : List String) (l : List Point) (p : Point)
    (h : ∃ q ∈ l, dominates mk xk q p = true) :
    ∃ r ∈ l, dominates mk xk r p = true ∧
      ∀ t ∈ l, dominates mk xk t r = false := by
  obtain ⟨q, hq, hqp⟩ := h
  have haux : ∀ (n : ℕ) (q : Point), q ∈ l → dominates mk xk q p = true →
      l.countP (fun t => dominates mk xk t q) ≤ n →
      ∃ r ∈ l, dominates mk xk r p = true ∧
        ∀ t ∈ l, dominates mk xk t r = false := by
    intro n
    induction n with
    | zero =>
      intro q hq hqp hcount
      refine ⟨q, hq, hqp, ?_⟩
      intro t ht
      cases hv : dominates mk xk t q with
      | false => rfl
      | true =>
        have : 0 < l.countP (fun t => dominates mk xk t q) :=
          List.countP_pos.2 ⟨t, ht, by simp [hv]⟩
        omega
    | succ n ih =>
      intro q hq hqp hcount
      by_cases h0 : ∀ t ∈ l, dominates mk xk t q = false
      · exact ⟨q, hq, hqp, h0⟩
      · push_neg at h0
        obtain ⟨t, ht, htq⟩ := h0
        have htq' : dominates mk xk t q = true := by
          cases hv : dominates mk xk t q with
          | false => exact absurd hv htq
          | true => rfl
        have htp : dominates mk xk t p = true := dominates_trans mk xk t q p htq' hqp
        have hlt : l.countP (fun s => dominates mk xk s t)
            < l.countP (fun s => dominates mk xk s q) := by
          apply countP_lt_of_imp
          · intro s _ hs
            exact dominates_trans mk xk s t q hs htq'
          · exact ⟨t, ht, htq', dominates_irrefl mk xk t⟩
        exact ih t ht htp (by omega)
  exact haux (l.countP (fun t => dominates mk xk t q)) q hq hqp (le_refl _)

/-- C1: for every input list of points and key sets whose minimize/maximize
keys are present in every point, `pareto_front` returns exactly the
non-dominated points: no returned point is dominated by any input point;
every input point not returned is dominated by some returned frontier
member; and the output is emitted in the order obtained by sorting on
(minimize keys ascending, maximize keys descending, then bin ascending) —
the frontier is exactly the dominance filter of that sorted list, and is
itself sorted in that order. The function is pure, so repeated calls on
the same input return the same list. -/
theorem pareto_front_spec (points : List Point) (mk xk : List String)
    (hkeys : ∀ p ∈ points, ∀ k ∈ mk ++ xk, (p.lookup k).isSome) :
    (∀ p ∈ pareto_front points mk xk, ∀ q ∈ points,
        dominates mk xk q p = false) ∧
    (∀ p ∈ points, p ∉ pareto_front points mk xk →
        ∃ q ∈ pareto_front points mk xk, dominates mk xk q p = true) ∧
    (pareto_front points mk xk).Sorted (keyLe mk xk) ∧
    pareto_front points mk xk
      = (points.insertionSort (keyLe mk xk)).filter
          (fun p => ! (points.insertionSort (keyLe mk xk)).any
              (fun q => dominates mk xk q p)) := by
  cases hpts : points with
  | nil =>
    refine ⟨?_, ?_, ?_, ?_⟩ <;> simp [pareto_front, List.Sorted]
  | cons p0 rest =>
    rw [← hpts]
    have hnonempty : points.isEmpty = false := by
      rw [hpts]; rfl
    have hdef : pareto_front points mk xk
        = (points.insertionSort (keyLe mk xk)).filter
            (fun p => ! (points.insertionSort (keyLe mk xk)).any
                (fun q => dominates mk xk q p)) := by
      unfold pareto_front
      rw [hnonempty]
      rfl
    have hperm : List.Perm (points.insertionSort (keyLe mk xk)) points :=
      List.perm_insertionSort _ _
    refine ⟨?_, ?_, ?_, hdef⟩
    · intro p hp q hq
      rw [hdef] at hp
      have hpred := List.of_mem_filter hp
      simp only [Bool.not_eq_true', List.any_eq_false] at hpred
      exact Bool.eq_false_iff.mpr (hpred q (hperm.mem_iff.2 hq))
    · intro p hp hnot
      rw [hdef] at hnot
      have hpord : p ∈ points.insertionSort (keyLe mk xk) := hperm.mem_iff.2 hp
      have hpred : ¬ ((fun p => ! (points.insertionSort (keyLe mk xk)).any
          (fun q => dominates mk xk q p)) p = true) := by
        intro hc
        exact hnot (List.mem_filter.2 ⟨hpord, hc⟩)
      have hany : (points.insertionSort (keyLe mk xk)).any
          (fun q => dominates mk xk q p) = true := by
        by_contra hv
        have hfalse : (points.insertionSort (keyLe mk xk)).any
            (fun q => dominates mk xk q p) = false := by
          cases hw : (points.insertionSort (keyLe mk xk)).any
              (fun q => dominates mk xk q p) with
          | false => rfl
          | true => exact absurd hw hv
        exact hpred (by simp [hfalse])
      obtain ⟨q, hq, hdom'⟩ := List.any_eq_true.1 hany
      obtain ⟨r, hr, hrp, hrmax⟩ :=
        exists_maximal_dominator mk xk (points.insertionSort (keyLe mk xk)) p
          ⟨q, hq, hdom'⟩
      refine ⟨r, ?_, hrp⟩
      rw [hdef]
      apply List.mem_filter.2
      refine ⟨hr, ?_⟩
      simp only [Bool.not_eq_true', List.any_eq_false]
      intro t ht
      simp [hrmax t ht]
    · rw [hdef]
      exact (List.sorted_insertionSort (keyLe mk xk) points).filter _

/-- The three-point scenario from the spec's §8: each point trades time
for accuracy. -/
def paretoPts : List Point :=
  [[("module_size", 2), ("time_median", 1/5), ("accuracy_mean", 1)],
   [("module_size", 4), ("time_median", 3/20), ("accuracy_mean", 1/2)],
   [("module_size", 6), ("time_median", 3/25), ("accuracy_mean", 3/5)]]

/-- Witness for C1 on the spec's three-point scenario. -/
theorem pareto_front_spec_witness :
    (∀ p ∈ pareto_front paretoPts ["time_median"] ["accuracy_mean"],
        ∀ q ∈ paretoPts,
          dominates ["time_median"] ["accuracy_mean"] q p = false) ∧
    (∀ p ∈ paretoPts, p ∉ pareto_front paretoPts ["time_median"] ["accuracy_mean"] →
        ∃ q ∈ pareto_front paretoPts ["time_median"] ["accuracy_mean"],
          dominates ["time_median"] ["accuracy_mean"] q p = true) ∧
    (pareto_front paretoPts ["time_median"] ["accuracy_mean"]).Sorted
        (keyLe ["time_median"] ["accuracy_mean"]) ∧
    pareto_front paretoPts ["time_median"] ["accuracy_mean"]
      = (paretoPts.insertionSort (keyLe ["time_median"] ["accuracy_mean"])).filter
          (fun p =>
            ! (paretoPts.insertionSort
                (keyLe ["time_median"] ["accuracy_mean"])).any
              (fun q => dominates ["time_median"] ["accuracy_mean"] q p)) :=
  pareto_front_spec paretoPts ["time_median"] ["accuracy_mean"] (by decide)

/-! ## Job state machine (`_run_job` in `src/qr_core/web_app.py`) -/

inductive JobStatus where
  | queued
  | running
  | done
  | error (message : String)
deriving DecidableEq

def JobStatus.isTerminal : JobStatus → Bool
  | .done => true
  | .error _ => true
  | _ => false

/-- The outcomes of the three fallible stages of `_run_job`: engine
construction (`ENGINE_REGISTRY[engine_key]()`), the experiment run
(`run_experiment`, fatal exception or a result list), and post-processing
(`save_results_json` + `build_bin_stats` + `build_interactive_plot`,
exception or the output artifact names). -/
structure JobOutcomes where
  engineInit : Except String Unit
  runOutcome : Except String (List SampleResult)
  postProcess : Except String (String × String)

/-- The statuses `_run_job` (web_app.py lines 1753-1813) writes to the job,
in order, after the initial `running`. Post-processing is not wrapped in
try/except: an exception there escapes `_run_job` (killing the worker
thread), so no further status is written. -/
def runJobStatuses (o : JobOutcomes) : List JobStatus :=
  match o.engineInit with
  | .error e => [.error ("Failed to initialize engine: " ++ e)]
  | .ok _ =>
    match o.runOutcome with
    | .error e => [.error ("Experiment failed: " ++ e)]
    | .ok results =>
      if results.isEmpty then [.error "No results produced."]
      else
        match o.postProcess with
        | .error _ => []
        | .ok _ => [.done]

/-- The full status history of a job: created `queued` by `_init_job`, set
`running` at the top of `_run_job`, then `runJobStatuses`. -/
def jobStatusTrace (o : JobOutcomes) : List JobStatus :=
  .queued :: .running :: runJobStatuses o

/-- The job's status after the worker thread has ended. -/
def finalJobStatus (o : JobOutcomes) : JobStatus :=
  (jobStatusTrace o).getLastD .queued

/-- A dummy successful measurement (used to exercise the non-empty-results
branch). -/
def dummyResult : SampleResult :=
  { dataset := "ds", engine := "e", module_size := 4, module_size_raw := 4,
    module_bin_step_px := 2, time_total_min_sec := 1,
    time_mode := "time_total_min", accuracy := 1, decoded := "x",
    expected := "x", image_path := "img", decode_iterations := 3 }

/-- Outcomes where everything succeeds except post-processing. -/
def postFailOutcome : JobOutcomes :=
  { engineInit := .ok (), runOutcome := .ok [dummyResult],
    postProcess := .error "disk full" }

/-- C4 counterexample: when post-processing fails after a successful,
non-empty run, the job never reaches `error` — the exception escapes
`_run_job` and the job is left in `running` forever. -/
theorem run_job_postprocess_counterexample :
    finalJobStatus postFailOutcome = JobStatus.running ∧
    (finalJobStatus postFailOutcome).isTerminal = false ∧
    jobStatusTrace postFailOutcome = [JobStatus.queued, JobStatus.running] := by
  refine ⟨rfl, rfl, rfl⟩

/-- C4 amended: a job reaches `error` (with a human-readable cause) when
engine initialization fails, when the Experiment Runner raises a fatal
failure, or when the result set is empty; a post-processing failure does
NOT produce `error` — the job stays in `running`. No transition ever
leaves the terminal states `done` or `error` (every status in the trace
except possibly the last is non-terminal). -/
theorem run_job_status_spec (o : JobOutcomes) :
    (∀ e, o.engineInit = .error e →
        finalJobStatus o = .error ("Failed to initialize engine: " ++ e)) ∧
    (∀ e, o.engineInit = .ok () → o.runOutcome = .error e →
        finalJobStatus o = .error ("Experiment failed: " ++ e)) ∧
    (o.engineInit = .ok () → o.runOutcome = .ok [] →
        finalJobStatus o = .error "No results produced.") ∧
    (∀ results art, o.engineInit = .ok () → o.runOutcome = .ok results →
        results ≠ [] → o.postProcess = .ok art →
        finalJobStatus o = .done) ∧
    (∀ results err, o.engineInit = .ok () → o.runOutcome = .ok results →
        results ≠ [] → o.postProcess = .error err →
        finalJobStatus o = .running) ∧
    (jobStatusTrace o).Chain' (fun a _ => a.isTerminal = false) := by
  obtain ⟨ei, ro, pp⟩ := o
  cases ei with
  | error e =>
    refine ⟨?_, ?_, ?_, ?_, ?_, ?_⟩ <;>
      simp [finalJobStatus, jobStatusTrace, runJobStatuses, JobStatus.isTerminal]
  | ok u =>
    cases u
    cases ro with
    | error e =>
      refine ⟨?_, ?_, ?_, ?_, ?_, ?_⟩ <;>
        simp [finalJobStatus, jobStatusTrace, runJobStatuses, JobStatus.isTerminal]
    | ok results =>
      cases results with
      | nil =>
        refine ⟨?_, ?_, ?_, ?_, ?_, ?_⟩ <;>
          simp [finalJobStatus, jobStatusTrace, runJobStatuses, JobStatus.isTerminal]
        · intro results a b h1 h2
          exact absurd h1 h2
        · intro results err h1 h2
          exact absurd h1 h2
      | cons r rs =>
        cases pp with
        | error err =>
          refine ⟨?_, ?_, ?_, ?_, ?_, ?_⟩ <;>
            simp [finalJobStatus, jobStatusTrace, runJobStatuses, JobStatus.isTerminal]
        | ok art =>
          refine ⟨?_, ?_, ?_, ?_, ?_, ?_⟩ <;>
            simp [finalJobStatus, jobStatusTrace, runJobStatuses, JobStatus.isTerminal]

/-- Witness for the amended C4 at the concrete post-processing-failure
outcomes. -/
theorem run_job_status_spec_witness :
    finalJobStatus postFailOutcome = JobStatus.running :=
  (run_job_status_spec postFailOutcome).2.2.2.2.1 [dummyResult] "disk full"
    rfl rfl (by decide) rfl

/-! ## The `/run` route's sample-count gate (web_app.py lines 1897-1915) -/

/-- A job registry entry as `_init_job` creates it. -/
structure JobRecord where
  status : JobStatus
  dataset : String
  engine : String
  iterations : ℤ
  bin_step_px : ℤ
  total : ℕ
  seen : ℕ
  processed : ℕ
  skipped_no_markup : ℕ
  error : Option String
  json_file : Option String
  html_file : Option String
deriving DecidableEq

/-- `_init_job`: a fresh job record, `queued`, all counters zero. -/
def initJob (dataset engine : String) (iterations bin_step_px : ℤ)
    (total : ℕ) : JobRecord :=
  { status := .queued, dataset := dataset, engine := engine,
    iterations := iterations, bin_step_px := bin_step_px, total := total,
    seen := 0, processed := 0, skipped_no_markup := 0,
    error := none, json_file := none, html_file := none }

inductive RunRouteOutcome where
  | rejected (message : String)
  | started (job : JobRecord)
deriving DecidableEq

def RunRouteOutcome.isStarted : RunRouteOutcome → Bool
  | .started _ => true
  | _ => false

/-- The sample-count gate of the `/run` route: after dataset and engine
validation, the route counts the matching samples; if the count is zero it
re-renders the index page with the error "No images found in dataset." and
creates no job; otherwise it registers a fresh queued job and spawns the
worker thread. -/
def run_route_sample_gate (dataset engine : String)
    (iterations bin_step_px : ℤ) (total : ℕ) : RunRouteOutcome :=
  if total = 0 then .rejected "No images found in dataset."
  else .started (initJob dataset engine iterations bin_step_px total)

/-- C7 counterexample: a run request against a dataset with zero matching
samples is rejected synchronously — no job is created at all, so no job
transitions to `error`. -/
theorem zero_samples_counterexample :
    run_route_sample_gate "ds" "zbar" 3 2 0
      = RunRouteOutcome.rejected "No images found in dataset." ∧
    (run_route_sample_gate "ds" "zbar" 3 2 0).isStarted = false := by
  exact ⟨rfl, rfl⟩

/-- C7 amended: a run request against a dataset that exists but contains
zero matching samples is rejected synchronously with the message
"No images found in dataset."; no job is created (so no job status is
involved at all). -/
theorem zero_samples_rejected (dataset engine : String)
    (iterations bin_step_px : ℤ) (total : ℕ) (h : total = 0) :
    run_route_sample_gate dataset engine iterations bin_step_px total
      = RunRouteOutcome.rejected "No images found in dataset." ∧
    (run_route_sample_gate dataset engine iterations bin_step_px total).isStarted
      = false := by
  subst h
  exact ⟨rfl, rfl⟩

/-- Witness for the amended C7. -/
theorem zero_samples_rejected_witness :
    run_route_sample_gate "ds" "zbar" 3 2 0
      = RunRouteOutcome.rejected "No images found in dataset." ∧
    (run_route_sample_gate "ds" "zbar" 3 2 0).isStarted = false :=
  zero_samples_rejected "ds" "zbar" 3 2 0 rfl

/-! ## Single-image re-run (`run_single` in web_app.py, lines 2101-2183) -/

/-- Fold invariant for `mostCommon`: the accumulator's count never
decreases, every traversed element's count is bounded by the final count,
and the final accumulator is either the initial one or a traversed element
paired with its count in `l`. -/
theorem mostCommon_fold_aux (l : List String) :
    ∀ (ys : List String) (b : String × ℕ),
      b.2 ≤ (ys.foldl
          (fun best x => if best.2 < l.count x then (x, l.count x) else best) b).2 ∧
      (∀ v ∈ ys, l.count v ≤ (ys.foldl
          (fun best x => if best.2 < l.count x then (x, l.count x) else best) b).2) ∧
      ((ys.foldl
          (fun best x => if best.2 < l.count x then (x, l.count x) else best) b) = b ∨
        ((ys.foldl
          (fun best x => if best.2 < l.count x then (x, l.count x) else best) b).1 ∈ ys ∧
         (ys.foldl
          (fun best x => if best.2 < l.count x then (x, l.count x) else best) b).2
           = l.count (ys.foldl
          (fun best x => if best.2 < l.count x then (x, l.count x) else best) b).1)) := by
  intro ys
  induction ys with
  | nil =>
    intro b
    exact ⟨le_refl _, by simp, Or.inl rfl⟩
  | cons x xs ih =>
    intro b
    simp only [List.foldl_cons]
    by_cases hup : b.2 < l.count x
    · rw [if_pos hup]
      obtain ⟨ha, hb, hc⟩ := ih (x, l.count x)
      refine ⟨le_trans (le_of_lt hup) ha, ?_, ?_⟩
      · intro v hv
        rcases List.mem_cons.1 hv with rfl | hv'
        · exact le_trans (le_refl _) ha
        · exact hb v hv'
      · rcases hc with hc | ⟨hc1, hc2⟩
        · rw [hc]
          exact Or.inr ⟨by simp, rfl⟩
        · exact Or.inr ⟨by simp [hc1], hc2⟩
    · rw [if_neg hup]
      obtain ⟨ha, hb, hc⟩ := ih b
      refine ⟨ha, ?_, ?_⟩
      · intro v hv
        rcases List.mem_cons.1 hv with rfl | hv'
        · exact le_trans (not_lt.1 hup) ha
        · exact hb v hv'
      · rcases hc with hc | ⟨hc1, hc2⟩
        · exact Or.inl hc
        · exact Or.inr ⟨by simp [hc1], hc2⟩

/-- `Counter(values).most_common(1)[0][0]` on a non-empty list returns an
element of the list of maximal multiplicity. -/
theorem mostCommon_spec (l : List String) (h : l ≠ []) :
    mostCommon l ∈ l ∧ ∀ v ∈ l, l.count v ≤ l.count (mostCommon l) := by
  obtain ⟨ha, hb, hc⟩ := mostCommon_fold_aux l l ("", 0)
  set r := l.foldl
    (fun best x => if best.2 < l.count x then (x, l.count x) else best) ("", 0) with hr
  have hmc : mostCommon l = r.1 := rfl
  obtain ⟨x, xs, rfl⟩ : ∃ x xs, l = x :: xs := by
    cases l with
    | nil => exact absurd rfl h
    | cons x xs => exact ⟨x, xs, rfl⟩
  have hxpos : 0 < (x :: xs).count x := List.count_pos_iff.2 (by simp)
  have hrpos : 0 < r.2 := lt_of_lt_of_le hxpos (hb x (by simp))
  rcases hc with hc | ⟨hc1, hc2⟩
  · rw [hc] at hrpos
    exact absurd hrpos (by simp)
  · rw [hmc]
    refine ⟨hc1, ?_⟩
    intro v hv
    rw [← hc2]
    exact hb v hv

/-- `decoded_best` in `run_single`:
`Counter(decoded_values).most_common(1)[0][0] if decoded_values else ""`. -/
def run_single_decoded_best (decoded_values : List String) : String :=
  if decoded_values.isEmpty then "" else mostCommon decoded_values

/-- `accuracy = 1 if decoded_best == expected else 0` in `run_single`. -/
def run_single_accuracy (decoded_values : List String) (expected : String) : ℤ :=
  if run_single_decoded_best decoded_values = expected then 1 else 0

/-- C10: on an image whose decode attempts all succeed, `run_single`
scores accuracy 1 iff the most-frequent decoded value equals the expected
ground-truth value exactly, and 0 otherwise — a strict-match policy,
different from the batch runner's non-empty-text policy (the last conjunct
exhibits decoded text "x" with expected "y": `run_single` scores 0 while
the batch per-attempt indicator scores 1). -/
theorem run_single_strict_match (decoded_values : List String) (expected : String)
    (h : decoded_values ≠ []) :
    (run_single_accuracy decoded_values expected = 1 ↔
        mostCommon decoded_values = expected) ∧
    (run_single_accuracy decoded_values expected = 0 ↔
        mostCommon decoded_values ≠ expected) ∧
    mostCommon decoded_values ∈ decoded_values ∧
    (∀ v ∈ decoded_values,
        decoded_values.count v ≤ decoded_values.count (mostCommon decoded_values)) ∧
    (run_single_accuracy ["x"] "y" = 0 ∧ attemptCorrectness "x" = 1) := by
  have hemp : decoded_values.isEmpty = false := by
    cases decoded_values with
    | nil => exact absurd rfl h
    | cons a t => rfl
  have hbest : run_single_decoded_best decoded_values = mostCommon decoded_values := by
    unfold run_single_decoded_best
    rw [hemp]
    rfl
  obtain ⟨hmem, hmax⟩ := mostCommon_spec decoded_values h
  refine ⟨?_, ?_, hmem, hmax, by decide, by decide⟩
  · unfold run_single_accuracy
    rw [hbest]
    by_cases hv : mostCommon decoded_values = expected
    · simp [hv]
    · simp [hv]
  · unfold run_single_accuracy
    rw [hbest]
    by_cases hv : mostCommon decoded_values = expected
    · simp [hv]
    · simp [hv]

/-- Witness for C10 at decoded values ["a", "b", "a"] and expected "a". -/
theorem run_single_strict_match_witness :
    (run_single_accuracy ["a", "b", "a"] "a" = 1 ↔
        mostCommon ["a", "b", "a"] = "a") ∧
    (run_single_accuracy ["a", "b", "a"] "a" = 0 ↔
        mostCommon ["a", "b", "a"] ≠ "a") ∧
    mostCommon ["a", "b", "a"] ∈ ["a", "b", "a"] ∧
    (∀ v ∈ ["a", "b", "a"],
        (["a", "b", "a"] : List String).count v
          ≤ (["a", "b", "a"] : List String).count (mostCommon ["a", "b", "a"])) ∧
    (run_single_accuracy ["x"] "y" = 0 ∧ attemptCorrectness "x" = 1) :=
  run_single_strict_match ["a", "b", "a"] "a" (by decide)

end QRCV
